import Mathlib

/-!
Verification of the wag WebAssembly-to-native code generator core.

The definitions below are shallow embeddings of the Go source:
`code.go` (per-function and program coder), the x86 backend
(`OpBranchIfOutOfBounds`, `opCompareBounds`), `values` (operand model)
and `program.go` (program layout).  Machine integers are modelled as
`Nat`/`Int` with explicit reductions modulo powers of two where the Go
code truncates.
-/

namespace Wag

/-- Value types, from `types.T` (I32, I64, F32, F64, Void). -/
inductive Ty where
  | i32
  | i64
  | f32
  | f64
  | void
deriving DecidableEq, Repr

/-- Byte size of a type, from `types.T.Size`. -/
def Ty.size : Ty → Nat
  | .i32 => 4
  | .f32 => 4
  | .i64 => 8
  | .f64 => 8
  | .void => 0

/-- Operand storage classes, from package `values` as used by `code.go`:
Nowhere, Imm, Var, VarMem, VarReg, TempReg, Stack, ConditionFlags, ROData. -/
inductive Storage where
  | nowhere
  | imm
  | varRef
  | varMem
  | varReg
  | tempReg
  | stack
  | condFlags
  | roData
deriving DecidableEq, Repr

/-- An operand: a storage tag plus a 64-bit payload (the `X` field of
`values.Operand`).  Only the payload of immediates matters here. -/
structure Operand where
  storage : Storage
  bits : Nat := 0
deriving DecidableEq, Repr

/-- Truncate an integer to an unsigned 32-bit pattern. -/
def u32ofInt (v : Int) : Nat := (v % 4294967296).toNat

/-- Truncate an integer to an unsigned 64-bit pattern. -/
def u64ofInt (v : Int) : Nat := (v % 18446744073709551616).toNat

/-- `values.ImmOperand`: build an immediate operand; a 32-bit type keeps
the low 32 bits of the value, a 64-bit type the low 64 bits. -/
def immOperand (t : Ty) (v : Int) : Operand :=
  if t.size = 4 then { storage := .imm, bits := u32ofInt v }
  else { storage := .imm, bits := u64ofInt v }

/-- Interpret a 64-bit pattern's low 32 bits as a signed integer
(Go `int64(int32(uint32(x)))`). -/
def signed32 (bits : Nat) : Int :=
  let lo : Nat := bits % 4294967296
  if lo < 2147483648 then (lo : Int) else (lo : Int) - 4294967296

/-- Interpret a 64-bit pattern as a signed integer (Go `int64(x)`). -/
def signed64 (bits : Nat) : Int :=
  let lo : Nat := bits % 18446744073709551616
  if lo < 9223372036854775808 then (lo : Int)
  else (lo : Int) - 18446744073709551616

/-- `values.Operand.CheckImmValue`: the signed value of an immediate
operand, read at the given type; `none` if the operand is not an
immediate. -/
def checkImmValue (t : Ty) (x : Operand) : Option Int :=
  if x.storage = Storage.imm then
    if t.size = 4 then some (signed32 x.bits) else some (signed64 x.bits)
  else none

/-- Outcome of the constant-folding stage of `exprBinaryOp`: either a
folded result (with a flag telling whether the left operand was
discarded via `code.Discard`), or fall-through to `mach.BinaryOp` with
the (possibly swapped) operands. -/
inductive BinFold where
  | folded (result : Operand) (discardedLeft : Bool)
  | machOp (a b : Operand)
deriving DecidableEq, Repr

/-- The operand swap in `exprBinaryOp`: when the left operand is an
immediate and the right one is not, the commutative operations
add, and, or, xor exchange the two. -/
def binarySwap (opName : String) (a b : Operand) : Operand × Operand :=
  if a.storage = Storage.imm ∧ b.storage ≠ Storage.imm ∧
      (opName = "add" ∨ opName = "and" ∨ opName = "or" ∨ opName = "xor") then
    (b, a)
  else
    (a, b)

/-- The peephole constant-folding stage of `exprBinaryOp` (code.go lines
647-691): after the swap, if the right operand is an immediate, fold
x+0, x|0, x-0, x^0 to x; x*0 to 0 (discarding x); x*1 to x;
x div_s ±1 and x div_u 1 to 0 (discarding x).  Anything else reaches
`mach.BinaryOp`. -/
def binaryFold (opName : String) (t : Ty) (a0 b0 : Operand) : BinFold :=
  let p := binarySwap opName a0 b0
  let a := p.1
  let b := p.2
  match checkImmValue t b with
  | some value =>
    if (opName = "add" ∨ opName = "or" ∨ opName = "sub" ∨ opName = "xor") ∧ value = 0 then
      .folded a false
    else if opName = "mul" ∧ value = 0 then
      .folded (immOperand t 0) true
    else if opName = "mul" ∧ value = 1 then
      .folded a false
    else if opName = "div_s" ∧ (value = -1 ∨ value = 1) then
      .folded (immOperand t 0) true
    else if opName = "div_u" ∧ value = 1 then
      .folded (immOperand t 0) true
    else
      .machOp a b
  | none => .machOp a b

/-- `gen.WordSize` on the 64-bit target: one machine word, 8 bytes. -/
def wordSize : Nat := 8

/-- `AddIndirectCallSite` (code.go lines 1981-1988): the call-site map
entry for the call whose return address is the current text length.
The recorded stack depth is `code.stackOffset + gen.WordSize`, packed
into the high 32 bits, with the return address in the low 32 bits.
Go computes `(uint64(stackOffset) << 32) | uint64(retAddr)` in uint64
arithmetic, so each converted operand and the shifted product wrap
modulo 2^64. -/
def addIndirectCallSite (retAddr stackOffset : Nat) : Nat :=
  (((stackOffset + wordSize) <<< 32) % 18446744073709551616) |||
    (retAddr % 18446744073709551616)

/-- The stack-depth half of a call-site map entry (high 32 bits). -/
def callSiteDepth (entry : Nat) : Nat := entry >>> 32

/-- The return-address half of a call-site map entry (low 32 bits). -/
def callSiteRetAddr (entry : Nat) : Nat := entry % 4294967296

end Wag

/-- C3: for a binary division whose divisor is an immediate constant,
`exprBinaryOp` folds div_s with divisor 1 or -1, and div_u with
divisor 1, to the immediate constant 0, discarding the dividend operand
(no fall-through to `mach.BinaryOp`, so no division instruction is
emitted and the dividend's evaluation result is not kept). -/
theorem div_const_folds_to_zero (opName : String) (t : Wag.Ty) (a b : Wag.Operand)
    (v : Int) (hv : Wag.checkImmValue t b = some v)
    (hop : (opName = "div_s" ∧ (v = -1 ∨ v = 1)) ∨ (opName = "div_u" ∧ v = 1)) :
    Wag.binaryFold opName t a b = .folded (Wag.immOperand t 0) true := by
  have hbi : b.storage = Wag.Storage.imm := by
    by_contra hne
    simp [Wag.checkImmValue, hne] at hv
  have hswap : Wag.binarySwap opName a b = (a, b) := by
    unfold Wag.binarySwap
    rw [if_neg]
    intro h
    exact h.2.1 hbi
  rcases hop with ⟨hdiv, hval⟩ | ⟨hdiv, hval⟩
  · subst hdiv
    rcases hval with h1 | h1 <;> subst h1 <;> simp [Wag.binaryFold, hswap, hv]
  · subst hdiv
    subst hval
    simp [Wag.binaryFold, hswap, hv]

/-- Witness for C3 at a concrete input: an I32 register dividend divided
(div_s) by the immediate constant -1 folds to immediate 0. -/
theorem div_const_folds_to_zero_witness :
    Wag.binaryFold "div_s" Wag.Ty.i32 { storage := .tempReg, bits := 3 }
      (Wag.immOperand Wag.Ty.i32 (-1))
      = .folded (Wag.immOperand Wag.Ty.i32 0) true :=
  div_const_folds_to_zero "div_s" Wag.Ty.i32 _ _ (-1) (by decide)
    (Or.inl ⟨rfl, Or.inl rfl⟩)

/-- C10: for add, or, xor and sub with right operand the immediate
constant 0, `exprBinaryOp` returns the left operand unchanged and never
reaches `mach.BinaryOp`, so no arithmetic instruction is emitted. -/
theorem add_or_xor_sub_zero_folds_to_left (opName : String) (t : Wag.Ty)
    (a b : Wag.Operand) (hv : Wag.checkImmValue t b = some 0)
    (hop : opName = "add" ∨ opName = "or" ∨ opName = "xor" ∨ opName = "sub") :
    Wag.binaryFold opName t a b = .folded a false := by
  have hbi : b.storage = Wag.Storage.imm := by
    by_contra hne
    simp [Wag.checkImmValue, hne] at hv
  have hswap : Wag.binarySwap opName a b = (a, b) := by
    unfold Wag.binarySwap
    rw [if_neg]
    intro h
    exact h.2.1 hbi
  rcases hop with h | h | h | h <;> subst h <;> simp [Wag.binaryFold, hswap, hv]

/-- Witness for C10 at a concrete input: an I64 temp-register operand
plus immediate 0 folds to the left operand itself. -/
theorem add_or_xor_sub_zero_folds_to_left_witness :
    Wag.binaryFold "add" Wag.Ty.i64 { storage := .tempReg, bits := 5 }
      (Wag.immOperand Wag.Ty.i64 0)
      = .folded { storage := .tempReg, bits := 5 } false :=
  add_or_xor_sub_zero_folds_to_left "add" Wag.Ty.i64 _ _ (by decide) (Or.inl rfl)

/-- C1 counterexample: at a call site with return address 100 and virtual
stack offset 0 at the instruction following the call, the recorded depth
is 8 (the link word), not the virtual stack offset 0 — so the recorded
depth does not exclude the link word pushed by the call. -/
theorem callSiteDepth_not_excluding_link :
    Wag.callSiteDepth (Wag.addIndirectCallSite 100 0) = 8 ∧
      Wag.callSiteDepth (Wag.addIndirectCallSite 100 0) ≠ 0 := by
  constructor <;> decide

/-- C1 amended: the recorded u32 stack depth equals the virtual stack
offset at the instruction following the call plus one machine word —
that is, it includes the link word pushed by the call instruction —
reduced modulo 2^32 by the uint64 packing; the low 32 bits hold the
return address. -/
theorem callSiteDepth_includes_link (retAddr stackOffset : Nat)
    (hr : retAddr < 2 ^ 32) :
    Wag.callSiteDepth (Wag.addIndirectCallSite retAddr stackOffset)
        = (stackOffset + Wag.wordSize) % 4294967296 ∧
      Wag.callSiteRetAddr (Wag.addIndirectCallSite retAddr stackOffset) = retAddr := by
  unfold Wag.callSiteDepth Wag.callSiteRetAddr Wag.addIndirectCallSite
  have hr64 : retAddr % 18446744073709551616 = retAddr := by omega
  rw [hr64, Nat.shiftLeft_eq]
  have hhi : (stackOffset + Wag.wordSize) * 2 ^ 32 % 18446744073709551616
      = 2 ^ 32 * ((stackOffset + Wag.wordSize) % 4294967296) := by
    have h32 : (2 : Nat) ^ 32 = 4294967296 := by norm_num
    rw [h32]
    omega
  rw [hhi, ← Nat.mul_add_lt_is_or hr, Nat.shiftRight_eq_div_pow]
  have h32 : (2 : Nat) ^ 32 = 4294967296 := by norm_num
  rw [h32] at hr ⊢
  constructor <;> omega

/-- Witness for the amended C1 at a concrete input: return address 100,
virtual stack offset 16 — the recorded depth is 24 (16 plus the link
word, well below the u32 wrap) and the low half is 100. -/
theorem callSiteDepth_includes_link_witness :
    100 < 2 ^ 32 ∧
      (Wag.callSiteDepth (Wag.addIndirectCallSite 100 16)
          = (16 + Wag.wordSize) % 4294967296 ∧
        Wag.callSiteRetAddr (Wag.addIndirectCallSite 100 16) = 100) :=
  ⟨by norm_num, callSiteDepth_includes_link 100 16 (by norm_num)⟩

namespace Wag

/-- Abstraction of a parsed module for the program coder's scheduling:
the number of defined functions, the index of the start function
(`NamedCallables[m.Start]` resolved to its position in `m.Functions`),
and the indices of the functions each function calls directly. -/
structure CallGraph where
  numFuncs : Nat
  startIndex : Nat
  calls : Nat → List Nat

/-- The first compilation loop of `Code` (code.go lines 146-163): starting
at function index 0, compile each function in order and stop right after
compiling the start function (`if &f.Callable == startCallable break`).
Returns the indices compiled before the start trigger is closed.  The
fuel argument bounds the iteration count by the function count. -/
def codeLoopUntilStart (numFuncs startIndex : Nat) : Nat → Nat → List Nat
  | 0, _ => []
  | fuel + 1, i =>
    if i < numFuncs then
      i :: (if i = startIndex then [] else codeLoopUntilStart numFuncs startIndex fuel (i + 1))
    else
      []

/-- The set of function indices compiled (and bound via `UpdateCalls`)
when `Code` closes the start trigger (code.go lines 178-180). -/
def compiledAtTrigger (g : CallGraph) : List Nat :=
  codeLoopUntilStart g.numFuncs g.startIndex g.numFuncs 0

/-- Transitive-call reachability from one function index to another. -/
def reaches (g : CallGraph) : Nat → Nat → Prop :=
  Relation.ReflTransGen (fun a b => b ∈ g.calls a)

/-- A concrete two-function module whose start function (index 0) calls
function 1: compilation stops after the start function itself, so
function 1 is uncompiled when the trigger fires. -/
def forwardCallGraph : CallGraph :=
  { numFuncs := 2, startIndex := 0, calls := fun a => if a = 0 then [1] else [] }

end Wag

/-- C2 counterexample: in a two-function module whose start function
(index 0) calls function 1, function 1 is reachable from the start
function yet absent from the set compiled when the start trigger is
signalled — so a call from start can still reach the missing-function
placeholder at trigger time. -/
theorem start_trigger_reachable_not_compiled :
    ¬ (∀ j, Wag.reaches Wag.forwardCallGraph Wag.forwardCallGraph.startIndex j →
        j ∈ Wag.compiledAtTrigger Wag.forwardCallGraph) := by
  intro h
  have hreach : Wag.reaches Wag.forwardCallGraph 0 1 :=
    Relation.ReflTransGen.single (by simp [Wag.forwardCallGraph])
  have hmem := h 1 hreach
  have hlist : Wag.compiledAtTrigger Wag.forwardCallGraph = [0] := by rfl
  rw [hlist] at hmem
  simp at hmem

/-- Helper invariant for the first compilation loop of `Code`: with
enough fuel, starting from index `i`, the loop compiles exactly the
indices from `i` up to the start index. -/
theorem codeLoopUntilStart_mem (numFuncs startIndex : Nat)
    (hs : startIndex < numFuncs) :
    ∀ (fuel i j : Nat), numFuncs ≤ fuel + i → i ≤ startIndex →
      (j ∈ Wag.codeLoopUntilStart numFuncs startIndex fuel i ↔ i ≤ j ∧ j ≤ startIndex) := by
  intro fuel
  induction fuel with
  | zero =>
    intro i j hfi his
    omega
  | succ n ih =>
    intro i j hfi his
    have hin : i < numFuncs := by omega
    by_cases hstart : i = startIndex
    · subst hstart
      simp [Wag.codeLoopUntilStart, hin]
      omega
    · have hlt : i < startIndex := by omega
      have hrec := ih (i + 1) j (by omega) (by omega)
      simp [Wag.codeLoopUntilStart, hin, hstart, hrec]
      omega

/-- C2 amended: when the start trigger is signalled, exactly the
functions with index at most the start function's index have been
compiled and bound in the text region; a function reachable from the
start function whose index is larger is not yet compiled, and calls to
it still hold the missing-function placeholder. -/
theorem compiledAtTrigger_iff_le_start (g : Wag.CallGraph)
    (hs : g.startIndex < g.numFuncs) (j : Nat) :
    j ∈ Wag.compiledAtTrigger g ↔ j ≤ g.startIndex := by
  unfold Wag.compiledAtTrigger
  rw [codeLoopUntilStart_mem g.numFuncs g.startIndex hs g.numFuncs 0 j
    (by omega) (by omega)]
  omega

/-- Witness for the amended C2 at a concrete input: in the two-function
module with start index 0, function 0 is compiled at trigger time and
that is exactly the condition `0 ≤ 0`. -/
theorem compiledAtTrigger_iff_le_start_witness :
    Wag.forwardCallGraph.startIndex < Wag.forwardCallGraph.numFuncs ∧
      (0 ∈ Wag.compiledAtTrigger Wag.forwardCallGraph ↔
        0 ≤ Wag.forwardCallGraph.startIndex) :=
  ⟨by decide, compiledAtTrigger_iff_le_start Wag.forwardCallGraph (by decide) 0⟩

namespace Wag

/-- `binary.LittleEndian.PutUint64`: overwrite 8 bytes at `off` with the
little-endian representation of `v`; other bytes unchanged. -/
def putUint64LE (buf : Nat → Nat) (off v : Nat) : Nat → Nat :=
  fun i => if off ≤ i ∧ i < off + 8 then (v >>> (8 * (i - off))) % 256 else buf i

/-- `binary.LittleEndian.PutUint32`: overwrite 4 bytes at `off` with the
little-endian representation of `v`; other bytes unchanged. -/
def putUint32LE (buf : Nat → Nat) (off v : Nat) : Nat → Nat :=
  fun i => if off ≤ i ∧ i < off + 4 then (v >>> (8 * (i - off))) % 256 else buf i

/-- The packed function-table entry `(uint64(sigIndex) << 32) | uint64(addr)`
with both halves first truncated to `uint32` (code.go lines 172-174). -/
def packTableEntry (sigIndex addr : Nat) : Nat :=
  ((sigIndex % 4294967296) <<< 32) ||| (addr % 4294967296)

/-- The table-population loop of `Code` (code.go lines 165-176): write
each `(sigIndex, addr)` entry as a packed little-endian u64 at
consecutive 8-byte offsets starting at `off` (`roTableAddr = 0`). -/
def populateTable (buf : Nat → Nat) (off : Nat) : List (Nat × Nat) → (Nat → Nat)
  | [] => buf
  | e :: rest => populateTable (putUint64LE buf off (packTableEntry e.1 e.2)) (off + 8) rest

/-- Read back an 8-byte little-endian word at `off`. -/
def readUint64LE (buf : Nat → Nat) (off : Nat) : Nat :=
  buf off + buf (off + 1) * 256 + buf (off + 2) * 65536 +
    buf (off + 3) * 16777216 + buf (off + 4) * 4294967296 +
    buf (off + 5) * 1099511627776 + buf (off + 6) * 281474976710656 +
    buf (off + 7) * 72057594037927936

end Wag

/-- Byte value inside the 8-byte range of a `putUint64LE` store. -/
theorem putUint64LE_at (buf : Nat → Nat) (off v i : Nat) (h1 : off ≤ i)
    (h2 : i < off + 8) :
    Wag.putUint64LE buf off v i = (v >>> (8 * (i - off))) % 256 := by
  unfold Wag.putUint64LE
  rw [if_pos ⟨h1, h2⟩]

/-- Bytes outside the 8-byte range of a `putUint64LE` store are unchanged. -/
theorem putUint64LE_frame (buf : Nat → Nat) (off v i : Nat)
    (h : i < off ∨ off + 8 ≤ i) :
    Wag.putUint64LE buf off v i = buf i := by
  unfold Wag.putUint64LE
  rw [if_neg]
  omega

/-- Byte value inside the 4-byte range of a `putUint32LE` store. -/
theorem putUint32LE_at (buf : Nat → Nat) (off v i : Nat) (h1 : off ≤ i)
    (h2 : i < off + 4) :
    Wag.putUint32LE buf off v i = (v >>> (8 * (i - off))) % 256 := by
  unfold Wag.putUint32LE
  rw [if_pos ⟨h1, h2⟩]

/-- Bytes outside the 4-byte range of a `putUint32LE` store are unchanged. -/
theorem putUint32LE_frame (buf : Nat → Nat) (off v i : Nat)
    (h : i < off ∨ off + 4 ≤ i) :
    Wag.putUint32LE buf off v i = buf i := by
  unfold Wag.putUint32LE
  rw [if_neg]
  omega

/-- The table-population loop never touches bytes below its current
write offset. -/
theorem populateTable_below (entries : List (Nat × Nat)) :
    ∀ (buf : Nat → Nat) (off i : Nat), i < off →
      Wag.populateTable buf off entries i = buf i := by
  induction entries with
  | nil =>
    intro buf off i h
    rfl
  | cons e rest ih =>
    intro buf off i h
    show Wag.populateTable (Wag.putUint64LE buf off (Wag.packTableEntry e.1 e.2)) (off + 8) rest i = buf i
    rw [ih _ (off + 8) i (by omega), putUint64LE_frame buf off _ i (Or.inl h)]

/-- Reading an 8-byte word only depends on the 8 bytes it covers. -/
theorem readUint64LE_congr (f g : Nat → Nat) (off : Nat)
    (h : ∀ j, off ≤ j → j < off + 8 → f j = g j) :
    Wag.readUint64LE f off = Wag.readUint64LE g off := by
  unfold Wag.readUint64LE
  rw [h off (by omega) (by omega), h (off + 1) (by omega) (by omega),
    h (off + 2) (by omega) (by omega), h (off + 3) (by omega) (by omega),
    h (off + 4) (by omega) (by omega), h (off + 5) (by omega) (by omega),
    h (off + 6) (by omega) (by omega), h (off + 7) (by omega) (by omega)]

/-- Reading back an 8-byte little-endian store recovers the stored value. -/
theorem readUint64LE_putUint64LE (buf : Nat → Nat) (off v : Nat)
    (hv : v < 18446744073709551616) :
    Wag.readUint64LE (Wag.putUint64LE buf off v) off = v := by
  unfold Wag.readUint64LE
  rw [putUint64LE_at buf off v off (by omega) (by omega),
    putUint64LE_at buf off v (off + 1) (by omega) (by omega),
    putUint64LE_at buf off v (off + 2) (by omega) (by omega),
    putUint64LE_at buf off v (off + 3) (by omega) (by omega),
    putUint64LE_at buf off v (off + 4) (by omega) (by omega),
    putUint64LE_at buf off v (off + 5) (by omega) (by omega),
    putUint64LE_at buf off v (off + 6) (by omega) (by omega),
    putUint64LE_at buf off v (off + 7) (by omega) (by omega)]
  simp only [Nat.sub_self, Nat.add_sub_cancel_left, Nat.shiftRight_eq_div_pow]
  norm_num
  omega

/-- The packed entry in multiply-add form. -/
theorem packTableEntry_eq (s a : Nat) :
    Wag.packTableEntry s a = (s % 4294967296) * 4294967296 + a % 4294967296 := by
  unfold Wag.packTableEntry
  have ha : a % 4294967296 < 2 ^ 32 := by omega
  rw [Nat.shiftLeft_eq, Nat.mul_comm, ← Nat.mul_add_lt_is_or ha]

/-- The packed entry fits in 64 bits. -/
theorem packTableEntry_lt (s a : Nat) :
    Wag.packTableEntry s a < 18446744073709551616 := by
  rw [packTableEntry_eq]
  have h1 := Nat.mod_lt s (y := 4294967296) (by norm_num)
  have h2 := Nat.mod_lt a (y := 4294967296) (by norm_num)
  omega

/-- The table-population loop writes entry `i` as the packed u64 at
offset `off + 8*i`. -/
theorem populateTable_read (entries : List (Nat × Nat)) :
    ∀ (buf : Nat → Nat) (off i : Nat) (hi : i < entries.length),
      Wag.readUint64LE (Wag.populateTable buf off entries) (off + 8 * i)
        = Wag.packTableEntry (entries.get ⟨i, hi⟩).1 (entries.get ⟨i, hi⟩).2 := by
  induction entries with
  | nil =>
    intro buf off i hi
    simp at hi
  | cons e rest ih =>
    intro buf off i hi
    cases i with
    | zero =>
      show Wag.readUint64LE
          (Wag.populateTable (Wag.putUint64LE buf off (Wag.packTableEntry e.1 e.2)) (off + 8) rest)
          (off + 8 * 0) = Wag.packTableEntry e.1 e.2
      have hcongr := readUint64LE_congr
        (Wag.populateTable (Wag.putUint64LE buf off (Wag.packTableEntry e.1 e.2)) (off + 8) rest)
        (Wag.putUint64LE buf off (Wag.packTableEntry e.1 e.2)) off
        (fun j _ hj2 => populateTable_below rest _ (off + 8) j (by omega))
      have hz : off + 8 * 0 = off := by omega
      rw [hz, hcongr]
      exact readUint64LE_putUint64LE buf off _ (packTableEntry_lt e.1 e.2)
    | succ n =>
      show Wag.readUint64LE
          (Wag.populateTable (Wag.putUint64LE buf off (Wag.packTableEntry e.1 e.2)) (off + 8) rest)
          (off + 8 * (n + 1)) = _
      have hn : n < rest.length := by
        simpa using Nat.lt_of_succ_lt_succ hi
      have hoff : off + 8 * (n + 1) = (off + 8) + 8 * n := by omega
      rw [hoff, ih (Wag.putUint64LE buf off (Wag.packTableEntry e.1 e.2)) (off + 8) n hn]
      rfl

/-- C4: entry `i` of the function table is the 8-byte little-endian word
`(sig_index << 32) | func_addr` written at offset `8*i` (with address 0,
the NoFunction stub, for functions not yet compiled when the entry is
written); the later fix-up overwrites only the low 4 address bytes of
the entry, after which the entry reads back as `(sig_index << 32)`
combined with the new address. -/
theorem table_entry_layout_and_fixup (entries : List (Nat × Nat)) (buf : Nat → Nat)
    (i : Nat) (hi : i < entries.length) (sig newAddr : Nat)
    (ha : newAddr < 4294967296) :
    Wag.readUint64LE (Wag.populateTable buf 0 entries) (8 * i)
        = Wag.packTableEntry (entries.get ⟨i, hi⟩).1 (entries.get ⟨i, hi⟩).2
    ∧ (∀ k, 4 ≤ k → k < 8 →
        Wag.putUint32LE (Wag.putUint64LE buf (8 * i) (Wag.packTableEntry sig 0)) (8 * i) newAddr (8 * i + k)
          = Wag.putUint64LE buf (8 * i) (Wag.packTableEntry sig 0) (8 * i + k))
    ∧ Wag.readUint64LE
        (Wag.putUint32LE (Wag.putUint64LE buf (8 * i) (Wag.packTableEntry sig 0)) (8 * i) newAddr)
        (8 * i)
        = Wag.packTableEntry sig newAddr := by
  refine ⟨?_, ?_, ?_⟩
  · have h := populateTable_read entries buf 0 i hi
    simpa using h
  · intro k hk4 hk8
    exact putUint32LE_frame _ (8 * i) newAddr (8 * i + k) (Or.inr (by omega))
  · set off := 8 * i with hoffdef
    unfold Wag.readUint64LE
    rw [putUint32LE_at _ off newAddr off (by omega) (by omega),
      putUint32LE_at _ off newAddr (off + 1) (by omega) (by omega),
      putUint32LE_at _ off newAddr (off + 2) (by omega) (by omega),
      putUint32LE_at _ off newAddr (off + 3) (by omega) (by omega),
      putUint32LE_frame _ off newAddr (off + 4) (Or.inr (by omega)),
      putUint32LE_frame _ off newAddr (off + 5) (Or.inr (by omega)),
      putUint32LE_frame _ off newAddr (off + 6) (Or.inr (by omega)),
      putUint32LE_frame _ off newAddr (off + 7) (Or.inr (by omega)),
      putUint64LE_at buf off _ (off + 4) (by omega) (by omega),
      putUint64LE_at buf off _ (off + 5) (by omega) (by omega),
      putUint64LE_at buf off _ (off + 6) (by omega) (by omega),
      putUint64LE_at buf off _ (off + 7) (by omega) (by omega)]
    simp only [Nat.sub_self, Nat.add_sub_cancel_left, Nat.shiftRight_eq_div_pow]
    rw [packTableEntry_eq sig 0, packTableEntry_eq sig newAddr]
    have hs := Nat.mod_lt sig (y := 4294967296) (by norm_num)
    norm_num
    omega

/-- Witness for C4 at a concrete input: a two-entry table, entry 1 with
signature index 3 and address 100; fix-up of an entry with signature 7
from address 0 to address 256. -/
theorem table_entry_layout_and_fixup_witness :
    1 < [(7, 0), (3, 100)].length ∧ 256 < 4294967296 ∧
      (Wag.readUint64LE (Wag.populateTable (fun _ => 0) 0 [(7, 0), (3, 100)]) (8 * 1)
          = Wag.packTableEntry 3 100
        ∧ (∀ k, 4 ≤ k → k < 8 →
            Wag.putUint32LE (Wag.putUint64LE (fun _ => 0) (8 * 1) (Wag.packTableEntry 7 0)) (8 * 1) 256 (8 * 1 + k)
              = Wag.putUint64LE (fun _ => 0) (8 * 1) (Wag.packTableEntry 7 0) (8 * 1 + k))
        ∧ Wag.readUint64LE
            (Wag.putUint32LE (Wag.putUint64LE (fun _ => 0) (8 * 1) (Wag.packTableEntry 7 0)) (8 * 1) 256)
            (8 * 1)
            = Wag.packTableEntry 7 256) :=
  ⟨by norm_num, by norm_num,
    table_entry_layout_and_fixup [(7, 0), (3, 100)] (fun _ => 0) 1 (by norm_num) 7 256
      (by norm_num)⟩

namespace Wag

/-- `mach.FunctionAlignment` on x86-64: 16 bytes. -/
def functionAlignment : Nat := 16

/-- `code.Align` (code.go lines 227-233): pad the text length up to the
next multiple of the alignment. -/
def alignUp (n a : Nat) : Nat := n + ((a - n % a) % a)

/-- Align an address downward (`addr &^ (FunctionAlignment - 1)` for the
power-of-two alignment used in genFunction). -/
def alignDown (n a : Nat) : Nat := n - n % a

/-- Modelled from the spec: `mach.OpFunctionPrologue` is not under src/
(only its caller `genFunction` is).  Per spec section 4.5, the prologue
emits function alignment, then a stack-reservation check with a
placeholder displacement; `size` is the byte size of that stack-check
code (positive: the x86 backend emits a lea + cmp + branch + trap
call). -/
structure PrologueModel where
  size : Nat
  size_pos : 0 < size

/-- The addresses computed by `genFunction` (code.go lines 306-310 and
374-401): `mapAddr` is the text length when the function's emission
begins, recorded into the function map before the prologue runs; the
prologue aligns the text and emits the stack check; if the function used
stack (`maxStackOffset > 0`) calls enter at the aligned prologue start,
otherwise the stack check is deleted and calls enter at the aligned-down
end of the stack-check code. -/
def genFunctionAddrs (pro : PrologueModel) (startLen : Nat) (usesStack : Bool) :
    Nat × Nat :=
  let mapAddr := startLen
  let entry := alignUp startLen functionAlignment
  let stackCheckEnd := entry + pro.size
  let invokeAddr :=
    if usesStack then entry else alignDown stackCheckEnd functionAlignment
  (mapAddr, invokeAddr)

/-- The concrete x86 stack-check size: lea (8 bytes) + cmp (4 bytes) +
jge rel8 (2 bytes) + trap call (5 bytes), per `OpTrapIfStackExhausted`. -/
def x86PrologueModel : PrologueModel := ⟨19, by norm_num⟩

end Wag

/-- C5 counterexample: a function starting at an aligned text offset 0
whose body uses no stack (so the prologue's stack check is deleted): the
function map records offset 0, but calls enter at offset 16 (the
aligned-down end of the 19-byte stack check), so the map entry is not
the entry address. -/
theorem funcMap_entry_not_invoke_addr :
    (Wag.genFunctionAddrs Wag.x86PrologueModel 0 false).1 = 0 ∧
      (Wag.genFunctionAddrs Wag.x86PrologueModel 0 false).2 = 16 ∧
      (Wag.genFunctionAddrs Wag.x86PrologueModel 0 false).1 ≠
        (Wag.genFunctionAddrs Wag.x86PrologueModel 0 false).2 := by
  refine ⟨rfl, rfl, ?_⟩
  decide

/-- C5 amended: the u32 written into the function map is the text offset
at which the function's emission begins, before alignment padding and
the prologue; the address at which calls enter is at least that offset;
it equals it when the text was already aligned and the function used
stack (so the stack check is kept); and when the function used no stack
the stack check is deleted and calls enter at the aligned-down end of
the stack-check code, which is strictly above the map entry whenever the
stack check spans at least one alignment unit, as the x86 one does. -/
theorem funcMap_entry_is_start_offset (pro : Wag.PrologueModel) (startLen : Nat)
    (usesStack : Bool) :
    (Wag.genFunctionAddrs pro startLen usesStack).1 = startLen ∧
      startLen ≤ (Wag.genFunctionAddrs pro startLen usesStack).2 ∧
      (usesStack = true → startLen % Wag.functionAlignment = 0 →
        (Wag.genFunctionAddrs pro startLen usesStack).2 = startLen) ∧
      (usesStack = false → Wag.functionAlignment ≤ pro.size →
        startLen < (Wag.genFunctionAddrs pro startLen usesStack).2) := by
  have hsize := pro.size_pos
  unfold Wag.genFunctionAddrs Wag.alignUp Wag.alignDown Wag.functionAlignment at *
  cases usesStack <;> simp <;> omega

/-- Witness for the amended C5 at a concrete input: an unaligned start
offset 35 with the x86 prologue and a stack-free body — the map records
35 while calls enter at the aligned-down end of the deleted stack check
(64), strictly above the recorded offset. -/
theorem funcMap_entry_is_start_offset_witness :
    (Wag.genFunctionAddrs Wag.x86PrologueModel 35 false).1 = 35 ∧
      35 ≤ (Wag.genFunctionAddrs Wag.x86PrologueModel 35 false).2 ∧
      (false = true → 35 % Wag.functionAlignment = 0 →
        (Wag.genFunctionAddrs Wag.x86PrologueModel 35 false).2 = 35) ∧
      (false = false → Wag.functionAlignment ≤ Wag.x86PrologueModel.size →
        35 < (Wag.genFunctionAddrs Wag.x86PrologueModel 35 false).2) :=
  funcMap_entry_is_start_offset Wag.x86PrologueModel 35 false

namespace Wag

/-- A resolved branch-table target at table-write time: the address its
label was bound to, and the stack offset recorded when the target was
pushed (`branchTarget.stackOffset`). -/
structure TableTarget where
  addr : Nat
  stackOffset : Int
deriving DecidableEq, Repr

/-- The common-offset scan of `exprBr`'s br_table case (code.go lines
1066-1073): the first table target's stack offset if every other target
matches it, else the sentinel -1. -/
def commonStackOffset (t0 : TableTarget) (rest : List TableTarget) : Int :=
  if rest.all (fun t => t.stackOffset == t0.stackOffset) then t0.stackOffset else -1

/-- The `codeStackOffset` field of the `branchTable` record built by
`exprBr` (code.go lines 1151-1160): -1 marks the common-offset case;
otherwise it is the table-point stack offset, which equals the default
target's recorded offset (`tableStackOffset = stackOffset - defaultDelta`). -/
def branchTableCodeStackOffset (defaultOffset : Int) (t0 : TableTarget)
    (rest : List TableTarget) : Int :=
  if 0 ≤ commonStackOffset t0 rest then -1 else defaultOffset

/-- Little-endian bytes of a 32-bit word. -/
def le32Bytes (v : Nat) : List Nat :=
  [v % 256, v / 256 % 256, v / 65536 % 256, v / 16777216 % 256]

/-- Little-endian bytes of a 64-bit word. -/
def le64Bytes (v : Nat) : List Nat :=
  [v % 256, v / 256 % 256, v / 65536 % 256, v / 16777216 % 256,
    v / 4294967296 % 256, v / 1099511627776 % 256,
    v / 281474976710656 % 256, v / 72057594037927936 % 256]

/-- The packed 8-byte br_table entry
`(uint64(uint32(delta)) << 32) | uint64(targetAddr)` with
`delta = codeStackOffset - target.stackOffset` (code.go lines 392-393). -/
def packedBrEntry (cso : Int) (t : TableTarget) : Nat :=
  (u32ofInt (cso - t.stackOffset)) <<< 32 ||| t.addr % 4294967296

/-- The branch-table write loop of `genFunction` (code.go lines 383-398):
with the sentinel codeStackOffset the entries are the 4-byte target
addresses; otherwise each entry is the packed 8-byte delta-and-address
word. -/
def writeTableEntries (cso : Int) : List TableTarget → List Nat
  | [] => []
  | t :: rest =>
    (if cso < 0 then le32Bytes (t.addr % 4294967296)
     else le64Bytes (packedBrEntry cso t))
      ++ writeTableEntries cso rest

end Wag

/-- With the common-offset sentinel, every emitted entry is the 4-byte
little-endian target address. -/
theorem writeTableEntries_common (ts : List Wag.TableTarget) (cso : Int)
    (h : cso < 0) :
    Wag.writeTableEntries cso ts
      = (ts.map fun t => Wag.le32Bytes (t.addr % 4294967296)).flatten := by
  induction ts with
  | nil => rfl
  | cons t rest ih =>
    show (if cso < 0 then _ else _) ++ _ = _
    rw [if_pos h, ih]
    rfl

/-- Without the common-offset sentinel, every emitted entry is the
packed 8-byte delta-and-address word. -/
theorem writeTableEntries_mixed (ts : List Wag.TableTarget) (cso : Int)
    (h : 0 ≤ cso) :
    Wag.writeTableEntries cso ts
      = (ts.map fun t => Wag.le64Bytes (Wag.packedBrEntry cso t)).flatten := by
  induction ts with
  | nil => rfl
  | cons t rest ih =>
    show (if cso < 0 then _ else _) ++ _ = _
    rw [if_neg (by omega), ih]
    rfl

/-- The packed br_table entry decodes as delta in the high 32 bits and
target address in the low 32 bits. -/
theorem packedBrEntry_decode (cso : Int) (t : Wag.TableTarget) :
    Wag.packedBrEntry cso t >>> 32 = Wag.u32ofInt (cso - t.stackOffset) ∧
      Wag.packedBrEntry cso t % 4294967296 = t.addr % 4294967296 := by
  unfold Wag.packedBrEntry
  have ha : t.addr % 4294967296 < 2 ^ 32 := by omega
  rw [Nat.shiftLeft_eq, Nat.mul_comm, ← Nat.mul_add_lt_is_or ha,
    Nat.shiftRight_eq_div_pow]
  have h32 : (2 : Nat) ^ 32 = 4294967296 := by norm_num
  rw [h32]
  constructor <;> omega

/-- C6: for every lowered br_table, if all table targets have the same
stack offset at branch time then each rodata entry is the 4-byte target
address only; otherwise each entry is the 8-byte word with the
stack-pointer delta (table-point offset minus target offset) in the high
32 bits and the target address in the low 32 bits.  The hypotheses state
that recorded stack offsets are nonnegative, which holds for every
pushed target. -/
theorem brTable_entry_sizes (d : Int) (t0 : Wag.TableTarget)
    (rest : List Wag.TableTarget) (hd : 0 ≤ d) (h0 : 0 ≤ t0.stackOffset) :
    (∀ v, (Wag.le32Bytes v).length = 4) ∧ (∀ v, (Wag.le64Bytes v).length = 8) ∧
      (rest.all (fun t => t.stackOffset == t0.stackOffset) = true →
        Wag.writeTableEntries (Wag.branchTableCodeStackOffset d t0 rest) (t0 :: rest)
          = ((t0 :: rest).map fun t => Wag.le32Bytes (t.addr % 4294967296)).flatten) ∧
      (rest.all (fun t => t.stackOffset == t0.stackOffset) = false →
        Wag.writeTableEntries (Wag.branchTableCodeStackOffset d t0 rest) (t0 :: rest)
            = ((t0 :: rest).map fun t => Wag.le64Bytes (Wag.packedBrEntry d t)).flatten
          ∧ ∀ t : Wag.TableTarget,
              Wag.packedBrEntry d t >>> 32 = Wag.u32ofInt (d - t.stackOffset) ∧
                Wag.packedBrEntry d t % 4294967296 = t.addr % 4294967296) := by
  refine ⟨fun v => rfl, fun v => rfl, ?_, ?_⟩
  · intro hall
    have hcommon : Wag.commonStackOffset t0 rest = t0.stackOffset := by
      unfold Wag.commonStackOffset
      rw [if_pos hall]
    have hcso : Wag.branchTableCodeStackOffset d t0 rest = -1 := by
      unfold Wag.branchTableCodeStackOffset
      rw [hcommon, if_pos h0]
    rw [hcso]
    exact writeTableEntries_common _ _ (by omega)
  · intro hall
    have hcommon : Wag.commonStackOffset t0 rest = -1 := by
      unfold Wag.commonStackOffset
      rw [if_neg]
      simp [hall]
    have hcso : Wag.branchTableCodeStackOffset d t0 rest = d := by
      unfold Wag.branchTableCodeStackOffset
      rw [hcommon, if_neg (by omega)]
    rw [hcso]
    exact ⟨writeTableEntries_mixed _ _ hd, fun t => packedBrEntry_decode d t⟩

/-- Witness for C6 at a concrete input: two targets with distinct stack
offsets 0 and 8 and table-point offset 8 — mixed offsets give 8-byte
packed entries. -/
theorem brTable_entry_sizes_witness :
    (0 : Int) ≤ 8 ∧ (0 : Int) ≤ Wag.TableTarget.stackOffset ⟨100, 0⟩ ∧
      ((∀ v, (Wag.le32Bytes v).length = 4) ∧ (∀ v, (Wag.le64Bytes v).length = 8) ∧
        (([⟨200, 8⟩] : List Wag.TableTarget).all
            (fun t => t.stackOffset == Wag.TableTarget.stackOffset ⟨100, 0⟩) = true →
          Wag.writeTableEntries
              (Wag.branchTableCodeStackOffset 8 ⟨100, 0⟩ [⟨200, 8⟩]) [⟨100, 0⟩, ⟨200, 8⟩]
            = (([⟨100, 0⟩, ⟨200, 8⟩] : List Wag.TableTarget).map
                fun t => Wag.le32Bytes (t.addr % 4294967296)).flatten) ∧
        (([⟨200, 8⟩] : List Wag.TableTarget).all
            (fun t => t.stackOffset == Wag.TableTarget.stackOffset ⟨100, 0⟩) = false →
          Wag.writeTableEntries
              (Wag.branchTableCodeStackOffset 8 ⟨100, 0⟩ [⟨200, 8⟩]) [⟨100, 0⟩, ⟨200, 8⟩]
              = (([⟨100, 0⟩, ⟨200, 8⟩] : List Wag.TableTarget).map
                  fun t => Wag.le64Bytes (Wag.packedBrEntry 8 t)).flatten
            ∧ ∀ t : Wag.TableTarget,
                Wag.packedBrEntry 8 t >>> 32 = Wag.u32ofInt (8 - t.stackOffset) ∧
                  Wag.packedBrEntry 8 t % 4294967296 = t.addr % 4294967296)) :=
  ⟨by norm_num, by norm_num,
    brTable_entry_sizes 8 ⟨100, 0⟩ [⟨200, 8⟩] (by norm_num) (by norm_num)⟩

namespace Wag

/-- `opCompareBounds` (x86 backend, unnamed part_002 lines 389-394):
the upper bound is loaded into the scratch register and `cmovl` replaces
a negative index by the upper bound before the comparison. -/
def clampNegative (index upperBound : Int) : Int :=
  if index < 0 then upperBound else index

/-- `OpBranchIfOutOfBounds` (x86 backend, part_002 lines 383-387): after
`opCompareBounds` compares scratch (the upper bound) against the clamped
index, `jle` branches when upperBound ≤ clamped index in the signed
order. -/
def branchIfOutOfBoundsTaken (index upperBound : Int) : Bool :=
  decide (upperBound ≤ clampNegative index upperBound)

/-- Runtime behavior of the br_table dispatch sequence emitted by
`exprBr` (code.go lines 1128-1145): if the I32 condition is judged out
of bounds the branch to the default target is taken (`none`); otherwise
the packed rodata entry indexed by the condition is loaded and control
jumps indirectly to text base plus the entry's low 32 bits
(`OpBranchIndirect32`). -/
def brTableDispatch (cond : Int) (numTargets : Nat) (entries : Nat → Nat)
    (textBase : Nat) : Option Nat :=
  if branchIfOutOfBoundsTaken cond numTargets then none
  else some (textBase + entries cond.toNat % 4294967296)

/-- The per-entry stack-pointer adjustment in the mixed-offset case:
`OpShiftRightLogical32Bits` extracts the delta from the high half of the
loaded entry and `OpAddToStackPtr` adds it, lowering the virtual stack
offset from the table-point offset by the delta. -/
def brTableAdjustedOffset (tableOff : Int) (entry : Nat) : Int :=
  tableOff - ((entry >>> 32 : Nat) : Int)

end Wag

/-- C7: the emitted br_table dispatch branches to the default target
exactly when the I32 condition is out of bounds — negative or not less
than the number of table targets — and otherwise jumps indirectly
through the table entry indexed by the condition value; for a packed
entry the stack-pointer adjustment extracted from its high half brings
the virtual stack offset from the table-point offset down to the
target's recorded offset. -/
theorem brTable_dispatch_bounds (cond : Int) (numTargets : Nat)
    (entries : Nat → Nat) (textBase : Nat) :
    (Wag.brTableDispatch cond numTargets entries textBase = none ↔
      cond < 0 ∨ (numTargets : Int) ≤ cond) ∧
    (0 ≤ cond → cond < (numTargets : Int) →
      Wag.brTableDispatch cond numTargets entries textBase
        = some (textBase + entries cond.toNat % 4294967296)) ∧
    (∀ (tableOff : Int) (t : Wag.TableTarget), 0 ≤ t.stackOffset →
      t.stackOffset ≤ tableOff → tableOff - t.stackOffset < 4294967296 →
      Wag.brTableAdjustedOffset tableOff (Wag.packedBrEntry tableOff t)
        = t.stackOffset) := by
  refine ⟨?_, ?_, ?_⟩
  · simp only [Wag.brTableDispatch, Wag.branchIfOutOfBoundsTaken, Wag.clampNegative]
    by_cases hneg : cond < 0
    · simp [hneg]
    · by_cases hle : (numTargets : Int) ≤ cond
      · simp [hneg, hle]
      · simp [hneg, hle]
  · intro h1 h2
    have hcl : Wag.clampNegative cond numTargets = cond := by
      unfold Wag.clampNegative
      rw [if_neg (by omega)]
    unfold Wag.brTableDispatch Wag.branchIfOutOfBoundsTaken
    rw [hcl, if_neg (by simp; omega)]
  · intro tableOff t ht0 ht1 ht2
    unfold Wag.brTableAdjustedOffset
    rw [(packedBrEntry_decode tableOff t).1]
    unfold Wag.u32ofInt
    omega

/-- Witness for C7 at a concrete input: condition 1 with 3 targets is in
bounds, condition -1 would branch to the default target, and the packed
entry for a target at offset 8 under table-point offset 24 adjusts the
stack offset back to 8. -/
theorem brTable_dispatch_bounds_witness :
    (Wag.brTableDispatch 1 3 (fun i => 10 * i) 4096 = none ↔
      (1 : Int) < 0 ∨ (3 : Int) ≤ 1) ∧
    ((0 : Int) ≤ 1 → (1 : Int) < 3 →
      Wag.brTableDispatch 1 3 (fun i => 10 * i) 4096
        = some (4096 + (fun i => 10 * i) (Int.toNat 1) % 4294967296)) ∧
    (∀ (tableOff : Int) (t : Wag.TableTarget), 0 ≤ t.stackOffset →
      t.stackOffset ≤ tableOff → tableOff - t.stackOffset < 4294967296 →
      Wag.brTableAdjustedOffset tableOff (Wag.packedBrEntry tableOff t)
        = t.stackOffset) :=
  brTable_dispatch_bounds 1 3 (fun i => 10 * i) 4096

namespace Wag

/-- The per-function stack bookkeeping relevant to branches: the virtual
stack offset, how many locals have been physically pushed, and the
function's local count (fields of `coder` reset per function). -/
structure CoderStack where
  stackOffset : Nat
  pushedLocals : Nat
  numLocals : Nat
deriving DecidableEq, Repr

/-- `pushTarget` (code.go lines 2422-2432): the stack offset recorded in
a new branch target — the current virtual stack offset, except that
while locals initialization is still in progress the offset with all
locals pushed is recorded instead. -/
def pushTargetOffset (s : CoderStack) : Nat :=
  if s.pushedLocals < s.numLocals then s.numLocals * wordSize else s.stackOffset

/-- `opInitLocals` / `opInitLocalsUntil` (code.go lines 1899-1933): push
every remaining local, incrementing the stack offset by one word each. -/
def opInitLocalsStack (s : CoderStack) : CoderStack :=
  { s with
    stackOffset := s.stackOffset + (s.numLocals - s.pushedLocals) * wordSize,
    pushedLocals := max s.pushedLocals s.numLocals }

/-- The `br` emission to a non-function-end target (code.go lines
1042-1049): temp-register operands are saved (`extraSaved` bytes pushed
by `opSaveTempRegOperands`), locals are initialized, register variables
flushed, and then `OpAddImmToStackPtr` is emitted with delta equal to
the current stack offset minus the target's recorded offset.  Returns
the emitted adjustment and the coder state at the branch. -/
def brEmission (s : CoderStack) (extraSaved : Nat) (targetOffset : Nat) :
    Int × CoderStack :=
  let s1 := opInitLocalsStack
    { s with stackOffset := s.stackOffset + extraSaved }
  (((s1.stackOffset : Int) - (targetOffset : Int)), s1)

end Wag

/-- C8: for every br to a non-function-end target, the emitted
stack-pointer adjustment equals the virtual stack offset at the br (the
pre-branch offset plus the temp-operand saves plus the remaining local
pushes) minus the stack offset recorded when the target was pushed onto
the branch target stack; at the branch every local has been
initialized. -/
theorem br_adjustment_eq_offset_difference (s0 s : Wag.CoderStack)
    (extraSaved : Nat) (hinv : s.pushedLocals ≤ s.numLocals) :
    (Wag.brEmission s extraSaved (Wag.pushTargetOffset s0)).1
        = ((s.stackOffset + extraSaved
              + (s.numLocals - s.pushedLocals) * Wag.wordSize : Nat) : Int)
          - (Wag.pushTargetOffset s0 : Int)
      ∧ (Wag.brEmission s extraSaved (Wag.pushTargetOffset s0)).2.stackOffset
          = s.stackOffset + extraSaved
              + (s.numLocals - s.pushedLocals) * Wag.wordSize
      ∧ (Wag.brEmission s extraSaved (Wag.pushTargetOffset s0)).2.pushedLocals
          = s.numLocals := by
  unfold Wag.brEmission Wag.opInitLocalsStack
  refine ⟨rfl, rfl, ?_⟩
  simpa using hinv

/-- Witness for C8 at a concrete input: a target pushed at stack offset
16 with locals done, and a br taken at offset 32 with one 8-byte
temp-operand save and no pending locals — the emitted adjustment is
40 - 16 = 24. -/
theorem br_adjustment_eq_offset_difference_witness :
    Wag.CoderStack.pushedLocals ⟨32, 2, 2⟩ ≤ Wag.CoderStack.numLocals ⟨32, 2, 2⟩ ∧
      (Wag.brEmission ⟨32, 2, 2⟩ 8 (Wag.pushTargetOffset ⟨16, 2, 2⟩)).1
          = ((32 + 8 + (2 - 2) * Wag.wordSize : Nat) : Int)
            - (Wag.pushTargetOffset ⟨16, 2, 2⟩ : Int) ∧
      (Wag.brEmission ⟨32, 2, 2⟩ 8 (Wag.pushTargetOffset ⟨16, 2, 2⟩)).2.stackOffset
          = 32 + 8 + (2 - 2) * Wag.wordSize ∧
      (Wag.brEmission ⟨32, 2, 2⟩ 8 (Wag.pushTargetOffset ⟨16, 2, 2⟩)).2.pushedLocals
          = 2 :=
  ⟨by norm_num, br_adjustment_eq_offset_difference ⟨16, 2, 2⟩ ⟨32, 2, 2⟩ 8 (by norm_num)⟩

namespace Wag

/-- The coder state inspected at the end of `genFunction`: each
variable's reference count, the registers still allocated in each pool,
the live-operand list length, and the branch target stack depth. -/
structure CoderEnd where
  varRefCounts : List Int
  intAllocated : List Nat
  floatAllocated : List Nat
  liveOperandCount : Nat
  targetStackDepth : Nat
deriving DecidableEq, Repr

/-- The epilogue validation of `genFunction` (code.go lines 349-372):
panic if any variable's reference count is nonzero; `postCheck` each
register pool (modelled from the spec — the `regAllocator` source is not
under src/ — section 8: "both register pools are fully free"); panic if
live operands remain; panic if the branch target stack is not empty. -/
def epilogueValidate (s : CoderEnd) : Except String Unit :=
  if s.varRefCounts.any (fun n => n != 0) then
    .error "variable reference count is non-zero at end of function"
  else if s.intAllocated != [] then
    .error "integer register pool not fully free"
  else if s.floatAllocated != [] then
    .error "float register pool not fully free"
  else if s.liveOperandCount != 0 then
    .error "live operands exist at end of function"
  else if s.targetStackDepth != 0 then
    .error "branch target stack is not empty at end of function"
  else
    .ok ()

end Wag

/-- C9: the epilogue validation succeeds exactly when both register
pools are fully free, the branch target stack is empty, the
live-operands list is empty and every variable's reference count is
zero; in every other state the coder signals failure. -/
theorem epilogue_validation_iff (s : Wag.CoderEnd) :
    Wag.epilogueValidate s = .ok () ↔
      ((∀ c ∈ s.varRefCounts, c = 0) ∧ s.intAllocated = [] ∧
        s.floatAllocated = [] ∧ s.liveOperandCount = 0 ∧
        s.targetStackDepth = 0) := by
  unfold Wag.epilogueValidate
  by_cases h1 : s.varRefCounts.any (fun n => n != 0)
  · rw [if_pos h1]
    simp only [List.any_eq_true, bne_iff_ne] at h1
    obtain ⟨c, hc, hcne⟩ := h1
    constructor
    · intro h
      cases h
    · intro h
      exact absurd (h.1 c hc) hcne
  · rw [if_neg h1]
    simp only [List.any_eq_true, bne_iff_ne, not_exists] at h1
    by_cases h2 : s.intAllocated = []
    · by_cases h3 : s.floatAllocated = []
      · by_cases h4 : s.liveOperandCount = 0
        · by_cases h5 : s.targetStackDepth = 0
          · simp [h2, h3, h4, h5]
            intro c hc
            have := h1 c
            simp [hc] at this
            exact this
          · simp [h2, h3, h4, h5]
        · simp [h2, h3, h4]
      · simp [h2, h3]
    · simp [h2]
